import Mathlib

/-!
Verification of the checkers rules engine of this repository.

The engine lives in `src/game_state.py` (class `CheckersGame`, with its own
local `Piece` dataclass); `src/board.py` and `src/piece.py` contain a second,
parallel implementation of move generation (`Board.get_valid_moves`,
`Piece.get_move_directions`) that the state machine does not call.

The shallow embedding below translates that Python code into Lean:
* the mutable `CheckersGame` object becomes the record `Game`, and each
  mutating method becomes a function `Game → ... → Game` (or
  `Option (Bool × Game)` for the two public operations, where an outer
  `none` models the Python call raising an exception);
* the board is, as in Python, a list of 8 lists of 8 optional pieces;
* Python list indexing `xs[i]` is modelled by `pyIndex`: indices in
  `[0, len)` are used directly, indices in `[-len, 0)` wrap around
  (Python's negative indexing), anything else raises `IndexError`
  (modelled as `none`).
-/

set_option maxHeartbeats 1000000

inductive Color where
  | red : Color
  | black : Color
deriving DecidableEq, Repr

/-- The color of the other player (`'black' if color == 'red' else 'red'`). -/
def otherColor : Color → Color
  | Color.red => Color.black
  | Color.black => Color.red

/-- `Piece` dataclass of `src/game_state.py` (fields `color`, `king`). -/
structure Piece where
  color : Color
  king : Bool
deriving DecidableEq, Repr

/-- `self.board`: a Python list of 8 lists of 8 cells, each `None` or a piece. -/
abbrev BoardL := List (List (Option Piece))

/-- Resolve a Python list index for a list of length `len`: indices in
`[0, len)` are used as written, indices in `[-len, 0)` wrap around, and
anything else raises `IndexError` (`none`). -/
def pyIndex (len : Nat) (i : Int) : Option Nat :=
  if 0 ≤ i ∧ i < (len : Int) then some i.toNat
  else if -(len : Int) ≤ i ∧ i < 0 then some (i + len).toNat
  else none

/-- `self.board[r][c]` with Python indexing; the outer `none` models an
`IndexError`, the inner option is the cell's content. -/
def cellRaise (b : BoardL) (r c : Int) : Option (Option Piece) := do
  let ri ← pyIndex b.length r
  let row ← b.get? ri
  let ci ← pyIndex row.length c
  row.get? ci

/-- `self.board[r][c]` at a position where the access is known not to raise
(every use mirrors a Python access whose indices are already within
`[-len, len)`); an out-of-range access is collapsed to an empty cell. -/
def cellWrap (b : BoardL) (r c : Int) : Option Piece :=
  (cellRaise b r c).join

/-- `self.board[r][c] = v` with Python indexing (`none` = `IndexError`). -/
def setCell (b : BoardL) (r c : Int) (v : Option Piece) : Option BoardL := do
  let ri ← pyIndex b.length r
  let row ← b.get? ri
  let ci ← pyIndex row.length c
  some (b.set ri (row.set ci v))

/-- The direction list built inline in `CheckersGame._get_piece_moves`
(lines 49–55): red or king pieces get the two upward vectors, black or
king pieces additionally the two downward vectors, in that order. -/
def pieceDirections (p : Piece) : List (Int × Int) :=
  (if p.color = Color.red ∨ p.king = true then [(-1, -1), (-1, 1)] else []) ++
  (if p.color = Color.black ∨ p.king = true then [(1, -1), (1, 1)] else [])

/-- The capture-collection loop of `_get_piece_moves` (lines 57–66): for each
direction, the landing square two steps away must be on the board and empty
and the intermediate square must hold an opposing piece. -/
def captureDests (b : BoardL) (row col : Int) (p : Piece) : List (Int × Int) :=
  (pieceDirections p).filterMap fun d =>
    if 0 ≤ row + d.1 * 2 ∧ row + d.1 * 2 < 8 ∧
        0 ≤ col + d.2 * 2 ∧ col + d.2 * 2 < 8 ∧
        (∃ q, cellWrap b (row + d.1) (col + d.2) = some q ∧ q.color ≠ p.color) ∧
        cellWrap b (row + d.1 * 2) (col + d.2 * 2) = none
    then some (row + d.1 * 2, col + d.2 * 2) else none

/-- The regular-move loop of `_get_piece_moves` (lines 70–74): one diagonal
step into an on-board empty square. -/
def simpleDests (b : BoardL) (row col : Int) (p : Piece) : List (Int × Int) :=
  (pieceDirections p).filterMap fun d =>
    if 0 ≤ row + d.1 ∧ row + d.1 < 8 ∧ 0 ≤ col + d.2 ∧ col + d.2 < 8 ∧
        cellWrap b (row + d.1) (col + d.2) = none
    then some (row + d.1, col + d.2) else none

/-- `CheckersGame._get_piece_moves(row, col, capture_only)` (lines 43–75),
with `self.board` and `self.current_player` passed explicitly.  Returns `[]`
for an empty square or an opposing piece; otherwise returns the captures if
any exist or only captures were requested, and the simple moves otherwise. -/
def get_piece_moves (b : BoardL) (player : Color) (row col : Int)
    (captureOnly : Bool) : List (Int × Int) :=
  match cellWrap b row col with
  | none => []
  | some p =>
    if p.color ≠ player then []
    else if captureDests b row col p ≠ [] ∨ captureOnly = true then
      captureDests b row col p
    else simpleDests b row col p

/-- Python's `range(8)`, as the Int coordinates the board scans use. -/
def range8 : List Int := [0, 1, 2, 3, 4, 5, 6, 7]

/-- `CheckersGame._check_for_captures` (lines 77–87): the scan over all
squares for a piece of `player` with at least one capture (the Python
method stores the result in `self.must_capture` and returns it). -/
def check_for_captures (b : BoardL) (player : Color) : Bool :=
  range8.any fun r => range8.any fun c =>
    match cellWrap b r c with
    | some p => p.color = player ∧ get_piece_moves b player r c true ≠ []
    | none => false

/-- `CheckersGame._can_continue_capture(row, col)` (lines 89–91). -/
def can_continue_capture (b : BoardL) (player : Color) (row col : Int) : Bool :=
  get_piece_moves b player row col true ≠ []

/-- `CheckersGame.is_game_over` (lines 151–159): true iff no piece of the
current player has any valid move. -/
def is_game_over (b : BoardL) (player : Color) : Bool :=
  !(range8.any fun r => range8.any fun c =>
    match cellWrap b r c with
    | some p => p.color = player ∧ get_piece_moves b player r c false ≠ []
    | none => false)

/-- The mutable state of a `CheckersGame` object (fields set in
`__init__`, lines 20–27). -/
structure Game where
  board : BoardL
  current_player : Color
  selected_piece : Option (Int × Int)
  valid_moves : List (Int × Int)
  must_capture : Bool
  winner : Option Color
deriving DecidableEq, Repr

/-- `CheckersGame.initialize_board` (lines 29–41): black pieces on the dark
squares of rows 0–2, red pieces on the dark squares of rows 5–7. -/
def initialize_board : BoardL :=
  (List.range 8).map fun r => (List.range 8).map fun c =>
    if (r + c) % 2 = 1 then
      if r < 3 then some ⟨Color.black, false⟩
      else if 5 ≤ r then some ⟨Color.red, false⟩
      else none
    else none

/-- `CheckersGame.__init__` (lines 20–27): fresh board, red to move, nothing
selected, then `_check_for_captures` recomputes `must_capture`. -/
def initGame : Game :=
  { board := initialize_board
    current_player := Color.red
    selected_piece := none
    valid_moves := []
    must_capture := check_for_captures initialize_board Color.red
    winner := none }

/-- `CheckersGame._end_turn` (lines 140–149): switch players, clear the
selection, recompute `must_capture` for the new player, and if the new
player has no moves at all set `winner` to the other color. -/
def end_turn (g : Game) : Game :=
  let np := otherColor g.current_player
  let g2 : Game :=
    { g with current_player := np
             selected_piece := none
             valid_moves := []
             must_capture := check_for_captures g.board np }
  if is_game_over g.board np then { g2 with winner := some (otherColor np) }
  else g2

/-- `CheckersGame.select_piece(row, col)` (lines 93–109).  The result is
`none` when the initial access `self.board[row][col]` raises `IndexError`;
otherwise `some (returnValue, newState)`. -/
def select_piece (g : Game) (row col : Int) : Option (Bool × Game) :=
  match cellRaise g.board row col with
  | none => none
  | some none => some (false, g)
  | some (some p) =>
    if p.color ≠ g.current_player then some (false, g)
    else if g.must_capture then
      let moves := get_piece_moves g.board g.current_player row col true
      if moves = [] then some (false, g)
      else some (true, { g with selected_piece := some (row, col)
                                valid_moves := moves })
    else
      some (true, { g with selected_piece := some (row, col)
                           valid_moves :=
                             get_piece_moves g.board g.current_player row col false })

/-- The king-promotion check of `make_move` (lines 127–130): a red piece
reaching row 0 or a black piece reaching row 7 has its `king` flag set. -/
def promoteIf (p : Piece) (newRow : Int) : Piece :=
  if (p.color = Color.red ∧ newRow = 0) ∨ (p.color = Color.black ∧ newRow = 7)
  then { p with king := true } else p

/-- `CheckersGame.make_move(new_row, new_col)` (lines 111–138).  The result
is `none` when the Python call raises (an out-of-range board write, or the
promotion check reading `.color` of a `None` piece); otherwise
`some (returnValue, newState)`.  The Python code moves the piece object and
later mutates its `king` field in place; since after all board writes the
object is reachable only through the landing square, writing the
already-promoted piece there is equivalent. -/
def make_move (g : Game) (newRow newCol : Int) : Option (Bool × Game) :=
  match g.selected_piece with
  | none => some (false, g)
  | some (oldRow, oldCol) =>
    if (newRow, newCol) ∈ g.valid_moves then
      match cellRaise g.board oldRow oldCol with
      | none => none
      | some none => none
      | some (some p) =>
        let isCapture := (newRow - oldRow).natAbs = 2
        match setCell g.board newRow newCol (some (promoteIf p newRow)) with
        | none => none
        | some b1 =>
          match setCell b1 oldRow oldCol none with
          | none => none
          | some b2 =>
            match (if isCapture then
                     setCell b2 ((newRow + oldRow) / 2) ((newCol + oldCol) / 2) none
                   else some b2) with
            | none => none
            | some b3 =>
              if isCapture ∧ can_continue_capture b3 g.current_player newRow newCol then
                some (true,
                  { g with board := b3
                           selected_piece := some (newRow, newCol)
                           valid_moves :=
                             get_piece_moves b3 g.current_player newRow newCol true })
              else
                some (true, end_turn { g with board := b3 })
    else some (false, g)

/-- The state after a `select_piece` call, keeping the old state when the
call is rejected or raises (used to name states along concrete game lines). -/
def stepSel (g : Game) (r c : Int) : Game :=
  ((select_piece g r c).map Prod.snd).getD g

/-- The state after a `make_move` call, keeping the old state when the call
is rejected or raises. -/
def stepMove (g : Game) (r c : Int) : Game :=
  ((make_move g r c).map Prod.snd).getD g

/-!
The parallel move-generation implementation of `src/board.py` and
`src/piece.py`.  `Board.BOARD_SIZE` is 8; a `Board`'s `squares` field has
the same list-of-lists shape as `CheckersGame.board`, so the functions
below take the square grid directly.
-/

/-- `Piece.get_move_directions` (src/piece.py lines 11–30). -/
def get_move_directions (p : Piece) : List (Int × Int) :=
  (if p.color = Color.red ∨ p.king = true then [(-1, -1), (-1, 1)] else []) ++
  (if p.color = Color.black ∨ p.king = true then [(1, -1), (1, 1)] else [])

/-- `Board.is_valid_position` (src/board.py lines 34–36). -/
def is_valid_position (r c : Int) : Bool :=
  0 ≤ r ∧ r < 8 ∧ 0 ≤ c ∧ c < 8

/-- `Board.get_piece` (src/board.py lines 38–42): bounds-checked access,
`None` off the board.  Inside the bounds check the Python access
`self.squares[row][col]` cannot raise on an 8×8 grid, so `cellWrap` renders
it exactly. -/
def board_get_piece (b : BoardL) (r c : Int) : Option Piece :=
  if is_valid_position r c then cellWrap b r c else none

/-- `Board._check_capture` (src/board.py lines 104–119). -/
def board_check_capture (b : BoardL) (row col drow dcol : Int) (color : Color) :
    Option (Int × Int) :=
  let jr := row + drow * 2
  let jc := col + dcol * 2
  let mr := row + drow
  let mc := col + dcol
  if is_valid_position jr jc then
    if (∃ q, board_get_piece b mr mc = some q ∧ q.color ≠ color) ∧
        board_get_piece b jr jc = none
    then some (jr, jc) else none
  else none

/-- `Board.get_valid_moves` (src/board.py lines 73–102).  The Python method
accumulates into a `set`; since distinct directions always yield distinct
destination squares the insertion list below holds the same elements, and
the equivalence claim about it is stated via membership. -/
def board_get_valid_moves (b : BoardL) (row col : Int) (captureOnly : Bool) :
    List (Int × Int) :=
  match board_get_piece b row col with
  | none => []
  | some p =>
    let directions := get_move_directions p
    let captures := directions.filterMap fun d =>
      board_check_capture b row col d.1 d.2 p.color
    if captures ≠ [] ∨ captureOnly = true then captures
    else directions.filterMap fun d =>
      let nr := row + d.1
      let nc := col + d.2
      if is_valid_position nr nc = true ∧ board_get_piece b nr nc = none
      then some (nr, nc) else none

/-!
Serialization (`CheckersGame.serialize` / `CheckersGame.deserialize`,
src/game_state.py lines 161–184).  A `PieceData` models the two-key
dictionary `{'color': ..., 'king': ...}` produced by `Piece.serialize`;
a `Snapshot` models the six-key dictionary produced by
`CheckersGame.serialize`.
-/

/-- The dictionary `{'color': ..., 'king': ...}` of `Piece.serialize`. -/
structure PieceData where
  color : Color
  king : Bool
deriving DecidableEq, Repr

/-- The six-key dictionary of `CheckersGame.serialize`. -/
structure Snapshot where
  board : List (List (Option PieceData))
  current_player : Color
  selected_piece : Option (Int × Int)
  valid_moves : List (Int × Int)
  must_capture : Bool
  winner : Option Color
deriving DecidableEq, Repr

/-- `Piece.serialize` (game_state.py lines 11–12). -/
def pieceSerialize (p : Piece) : PieceData :=
  { color := p.color, king := p.king }

/-- `Piece.deserialize` (game_state.py lines 14–16): `cls(**data)` on a
non-empty dictionary rebuilds the piece from its two fields. -/
def pieceDeserialize (d : PieceData) : Piece :=
  { color := d.color, king := d.king }

/-- `CheckersGame.serialize` (lines 161–171). -/
def serialize (g : Game) : Snapshot :=
  { board := g.board.map fun row => row.map (Option.map pieceSerialize)
    current_player := g.current_player
    selected_piece := g.selected_piece
    valid_moves := g.valid_moves
    must_capture := g.must_capture
    winner := g.winner }

/-- `CheckersGame.deserialize` (lines 173–184): a fresh game is created and
every one of its six fields is then overwritten from the snapshot, so the
result is exactly the snapshot's data. -/
def deserialize (s : Snapshot) : Game :=
  { board := s.board.map fun row => row.map (Option.map pieceDeserialize)
    current_player := s.current_player
    selected_piece := s.selected_piece
    valid_moves := s.valid_moves
    must_capture := s.must_capture
    winner := s.winner }

/-!
Reachable states and the inductive invariant.

`Reachable` closes the fresh game under the two public operations.  Per the
interface contract (spec §6) callers pass coordinates in `[0,7]` to
`select_piece`; `make_move` steps are admitted at arbitrary integer
coordinates since the engine validates them against `valid_moves` itself.
A step exists only when the Python call returns (does not raise).
-/

inductive Reachable : Game → Prop where
  | init : Reachable initGame
  | select (g : Game) (r c : Int) (b : Bool) (g' : Game) :
      Reachable g → 0 ≤ r → r < 8 → 0 ≤ c → c < 8 →
      select_piece g r c = some (b, g') → Reachable g'
  | move (g : Game) (r c : Int) (b : Bool) (g' : Game) :
      Reachable g → make_move g r c = some (b, g') → Reachable g'

/-- The board is a list of 8 rows of 8 cells. -/
def BoardWF (b : BoardL) : Prop :=
  b.length = 8 ∧ ∀ row ∈ b, row.length = 8

/-- Pieces sit only on dark squares (`row + col` odd). -/
def DarkOnly (b : BoardL) : Prop :=
  ∀ r ∈ range8, ∀ c ∈ range8, cellWrap b r c ≠ none → (r + c) % 2 = 1

/-- The selection fields are consistent: either nothing is selected and no
moves are offered, or the selected square is in bounds, holds a piece of
the current player, and `valid_moves` is exactly what `_get_piece_moves`
returns there (capture-only iff `must_capture`). -/
def SelInv (g : Game) : Prop :=
  match g.selected_piece with
  | none => g.valid_moves = []
  | some (r, c) =>
    0 ≤ r ∧ r < 8 ∧ 0 ≤ c ∧ c < 8 ∧
    (∃ p, cellWrap g.board r c = some p ∧ p.color = g.current_player) ∧
    g.valid_moves = get_piece_moves g.board g.current_player r c g.must_capture

/-- The inductive invariant of reachable states: well-formed board, dark
squares only, `must_capture` agreeing with the capture scan, consistent
selection data, and a non-null winner only in game-over positions. -/
def EngineInv (g : Game) : Prop :=
  BoardWF g.board ∧ DarkOnly g.board ∧
  g.must_capture = check_for_captures g.board g.current_player ∧
  SelInv g ∧
  (g.winner ≠ none → is_game_over g.board g.current_player = true)

/-!
Concrete game lines (used by witnesses and counterexamples).

Line A: red opens 5,2 → 4,3; black replies 2,1 → 3,2, giving red a forced
capture while the red piece at (5,0) has none.
-/

def wA1 : Game := stepSel initGame 5 2
def wA2 : Game := stepMove wA1 4 3
def wA3 : Game := stepSel wA2 2 1
def wA4 : Game := stepMove wA3 3 2

/-!
Line B: a 12-ply line after which black jumps 2,1 → 4,3 (capturing the red
piece at (3,2)), can continue capturing from (4,3), while the black piece
at (4,7) simultaneously has a capture of its own — so mid-chain the engine
accepts selecting (4,7).
-/

def wB1 : Game := stepSel initGame 5 4
def wB2 : Game := stepMove wB1 4 3
def wB3 : Game := stepSel wB2 2 7
def wB4 : Game := stepMove wB3 3 6
def wB5 : Game := stepSel wB4 6 5
def wB6 : Game := stepMove wB5 5 4
def wB7 : Game := stepSel wB6 3 6
def wB8 : Game := stepMove wB7 4 7
def wB9 : Game := stepSel wB8 4 3
def wB10 : Game := stepMove wB9 3 2
def wB11 : Game := stepSel wB10 2 1
def wB12 : Game := stepMove wB11 4 3
def wB13 : Game := stepSel wB12 4 7

/-- An empty board row. -/
def emptyRow : List (Option Piece) :=
  [none, none, none, none, none, none, none, none]

/-- A hand-built position: a red piece on (5,4) is selected with the jump
to (3,2) offered; black pieces sit on (4,3) (about to be captured) and
(2,1) (giving a continuation capture to (1,0) after the jump). -/
def handBoard : BoardL :=
  [emptyRow,
   emptyRow,
   [none, some ⟨Color.black, false⟩, none, none, none, none, none, none],
   emptyRow,
   [none, none, none, some ⟨Color.black, false⟩, none, none, none, none],
   [none, none, none, none, some ⟨Color.red, false⟩, none, none, none],
   emptyRow,
   emptyRow]

/-- The game state around `handBoard`, mid-turn with (5,4) selected. -/
def handGame : Game :=
  { board := handBoard
    current_player := Color.red
    selected_piece := some (5, 4)
    valid_moves := [(3, 2)]
    must_capture := true
    winner := none }

instance (b : BoardL) : Decidable (BoardWF b) :=
  decidable_of_iff (b.length = 8 ∧ ∀ row ∈ b, row.length = 8)
    (by unfold BoardWF; exact Iff.rfl)

instance (b : BoardL) : Decidable (DarkOnly b) :=
  decidable_of_iff (∀ r ∈ range8, ∀ c ∈ range8, cellWrap b r c ≠ none → (r + c) % 2 = 1)
    (by unfold DarkOnly; exact Iff.rfl)

instance (g : Game) : Decidable (SelInv g) :=
  match h : g.selected_piece with
  | none => decidable_of_iff (g.valid_moves = []) (by unfold SelInv; rw [h])
  | some (r, c) =>
    decidable_of_iff
      (0 ≤ r ∧ r < 8 ∧ 0 ≤ c ∧ c < 8 ∧
        (∃ p, cellWrap g.board r c = some p ∧ p.color = g.current_player) ∧
        g.valid_moves = get_piece_moves g.board g.current_player r c g.must_capture)
      (by unfold SelInv; rw [h])

instance (g : Game) : Decidable (EngineInv g) :=
  decidable_of_iff
    (BoardWF g.board ∧ DarkOnly g.board ∧
      g.must_capture = check_for_captures g.board g.current_player ∧
      SelInv g ∧
      (g.winner ≠ none → is_game_over g.board g.current_player = true))
    (by unfold EngineInv; exact Iff.rfl)

/-! ### Basic facts about indices, cells and writes -/

theorem mem_range8 {x : Int} : x ∈ range8 ↔ 0 ≤ x ∧ x < 8 := by
  constructor
  · intro h
    simp only [range8, List.mem_cons, List.not_mem_nil, or_false] at h
    rcases h with rfl | rfl | rfl | rfl | rfl | rfl | rfl | rfl <;> norm_num
  · rintro ⟨h1, h2⟩
    interval_cases x <;> simp [range8]

theorem pyIndex_some_lt {len : Nat} {i : Int} {j : Nat}
    (h : pyIndex len i = some j) : j < len := by
  unfold pyIndex at h
  split at h
  · next h1 => injection h with h'; omega
  · split at h
    · next h2 => injection h with h'; omega
    · exact absurd h (by simp)

theorem pyIndex_nonneg {len : Nat} {i : Int} (h0 : 0 ≤ i) (h : i < (len : Int)) :
    pyIndex len i = some i.toNat := by
  unfold pyIndex
  rw [if_pos ⟨h0, h⟩]

theorem pyIndex_isSome {len : Nat} {i : Int} (h0 : -(len : Int) ≤ i)
    (h : i < (len : Int)) : (pyIndex len i).isSome = true := by
  unfold pyIndex
  by_cases h1 : 0 ≤ i ∧ i < (len : Int)
  · rw [if_pos h1]; rfl
  · rw [if_neg h1, if_pos ⟨h0, by omega⟩]; rfl

theorem cellWrap_some_cellRaise {b : BoardL} {r c : Int} {p : Piece}
    (h : cellWrap b r c = some p) : cellRaise b r c = some (some p) := by
  unfold cellWrap at h
  exact Option.join_eq_some.mp h

theorem cellRaise_isSome {b : BoardL} (hWF : BoardWF b) {r c : Int}
    (hr0 : -8 ≤ r) (hr : r < 8) (hc0 : -8 ≤ c) (hc : c < 8) :
    ∃ v, cellRaise b r c = some v := by
  obtain ⟨hlen, hrows⟩ := hWF
  have h1 : (pyIndex b.length r).isSome = true := by
    rw [hlen]; exact pyIndex_isSome (by norm_num; omega) (by norm_num; omega)
  obtain ⟨ri, hri⟩ := Option.isSome_iff_exists.mp h1
  have hril : ri < b.length := pyIndex_some_lt hri
  have hget : b.get? ri = some (b.get ⟨ri, hril⟩) := List.get?_eq_get hril
  have hrowlen : (b.get ⟨ri, hril⟩).length = 8 :=
    hrows _ (List.get_mem b ri hril)
  have h2 : (pyIndex (b.get ⟨ri, hril⟩).length c).isSome = true := by
    rw [hrowlen]; exact pyIndex_isSome (by norm_num; omega) (by norm_num; omega)
  obtain ⟨ci, hci⟩ := Option.isSome_iff_exists.mp h2
  have hcil : ci < (b.get ⟨ri, hril⟩).length := pyIndex_some_lt hci
  have hget2 : (b.get ⟨ri, hril⟩).get? ci = some ((b.get ⟨ri, hril⟩).get ⟨ci, hcil⟩) :=
    List.get?_eq_get hcil
  exact ⟨_, by
    simp only [cellRaise, Option.bind_eq_bind, hri, Option.some_bind, hget, hci]
    exact hget2⟩

theorem cellRaise_eq_cellWrap {b : BoardL} {r c : Int}
    (h : ∃ v, cellRaise b r c = some v) :
    cellRaise b r c = some (cellWrap b r c) := by
  obtain ⟨v, hv⟩ := h
  unfold cellWrap
  rw [hv]
  rfl

theorem cellWrap_eq_of_get {b : BoardL} (hlen : b.length = 8) {r c : Int}
    (hr0 : 0 ≤ r) (hr : r < 8) (hc0 : 0 ≤ c) (hc : c < 8) {row}
    (hrow : b.get? r.toNat = some row) (hrowlen : row.length = 8) :
    cellWrap b r c = (row.get? c.toNat).join := by
  unfold cellWrap cellRaise
  rw [hlen, pyIndex_nonneg hr0 (by exact_mod_cast hr)]
  simp only [Option.bind_eq_bind, Option.some_bind, hrow, hrowlen,
    pyIndex_nonneg hc0 (by exact_mod_cast hc : c < ((8 : Nat) : Int))]

theorem setCell_spec {b : BoardL} (hWF : BoardWF b) {r c : Int}
    (hr0 : 0 ≤ r) (hr : r < 8) (hc0 : 0 ≤ c) (hc : c < 8) (v : Option Piece) :
    ∃ b', setCell b r c v = some b' ∧ BoardWF b' ∧
      ∀ r' c' : Int, 0 ≤ r' → r' < 8 → 0 ≤ c' → c' < 8 →
        cellWrap b' r' c' = if r' = r ∧ c' = c then v else cellWrap b r' c' := by
  obtain ⟨hlen, hrows⟩ := hWF
  have hril : r.toNat < b.length := by omega
  have hget : b.get? r.toNat = some (b.get ⟨r.toNat, hril⟩) := List.get?_eq_get hril
  set row := b.get ⟨r.toNat, hril⟩ with hrowdef
  have hrowlen : row.length = 8 := hrows _ (List.get_mem b r.toNat hril)
  refine ⟨b.set r.toNat (row.set c.toNat v), ?_, ?_, ?_⟩
  · simp only [setCell, Option.bind_eq_bind]
    rw [hlen, pyIndex_nonneg hr0 (by exact_mod_cast hr)]
    simp only [Option.some_bind]
    rw [hget]
    simp only [Option.some_bind]
    rw [hrowlen, pyIndex_nonneg hc0 (by exact_mod_cast hc : c < ((8 : Nat) : Int))]
    simp only [Option.some_bind]
  · refine ⟨by rw [List.length_set]; exact hlen, ?_⟩
    intro row' hrow'
    rcases List.mem_or_eq_of_mem_set hrow' with h | h
    · exact hrows _ h
    · rw [h, List.length_set]; exact hrowlen
  · intro r' c' hr'0 hr'8 hc'0 hc'8
    have hlen' : (b.set r.toNat (row.set c.toNat v)).length = 8 := by
      rw [List.length_set]; exact hlen
    by_cases hre : r' = r
    · subst hre
      have hget' : (b.set r'.toNat (row.set c.toNat v)).get? r'.toNat =
          some (row.set c.toNat v) := by
        rw [List.get?_eq_getElem?]
        exact List.getElem?_set_self (by omega)
      by_cases hce : c' = c
      · subst hce
        rw [if_pos ⟨rfl, rfl⟩]
        rw [cellWrap_eq_of_get hlen' hr'0 hr'8 hc'0 hc'8 hget'
          (by rw [List.length_set]; exact hrowlen)]
        rw [List.get?_eq_getElem?, List.getElem?_set_self (by omega)]
        rfl
      · rw [if_neg (by tauto)]
        rw [cellWrap_eq_of_get hlen' hr'0 hr'8 hc'0 hc'8 hget'
          (by rw [List.length_set]; exact hrowlen)]
        rw [cellWrap_eq_of_get hlen hr'0 hr'8 hc'0 hc'8 hget hrowlen]
        rw [List.get?_eq_getElem?, List.getElem?_set_ne (by omega),
          ← List.get?_eq_getElem?]
    · have hrn : r.toNat ≠ r'.toNat := by omega
      have hril' : r'.toNat < b.length := by omega
      have hgetb : b.get? r'.toNat = some (b.get ⟨r'.toNat, hril'⟩) :=
        List.get?_eq_get hril'
      have hget' : (b.set r.toNat (row.set c.toNat v)).get? r'.toNat =
          some (b.get ⟨r'.toNat, hril'⟩) := by
        rw [List.get?_eq_getElem?, List.getElem?_set_ne hrn, ← List.get?_eq_getElem?]
        exact hgetb
      have hrowlen' : (b.get ⟨r'.toNat, hril'⟩).length = 8 :=
        hrows _ (List.get_mem b r'.toNat hril')
      rw [if_neg (by tauto)]
      rw [cellWrap_eq_of_get hlen' hr'0 hr'8 hc'0 hc'8 hget' hrowlen']
      rw [cellWrap_eq_of_get hlen hr'0 hr'8 hc'0 hc'8 hgetb hrowlen']

/-! ### Directions and move lists -/

theorem mem_pieceDirections {p : Piece} {d : Int × Int} (h : d ∈ pieceDirections p) :
    (d.1 = -1 ∨ d.1 = 1) ∧ (d.2 = -1 ∨ d.2 = 1) := by
  unfold pieceDirections at h
  rw [List.mem_append] at h
  rcases h with h | h <;> split at h <;>
    first
      | exact absurd h (List.not_mem_nil d)
      | (simp only [List.mem_cons, List.not_mem_nil, or_false] at h
         rcases h with rfl | rfl <;> exact ⟨by norm_num, by norm_num⟩)

theorem pieceDirections_king {p : Piece} (h : p.king = true) :
    pieceDirections p = [(-1, -1), (-1, 1), (1, -1), (1, 1)] := by
  unfold pieceDirections
  rw [if_pos (Or.inr h), if_pos (Or.inr h)]
  rfl

theorem pieceDirections_eq_get_move_directions (p : Piece) :
    pieceDirections p = get_move_directions p := rfl

theorem mem_captureDests {b : BoardL} {row col : Int} {p : Piece} {m : Int × Int} :
    m ∈ captureDests b row col p ↔ ∃ d ∈ pieceDirections p,
      m = (row + d.1 * 2, col + d.2 * 2) ∧
      0 ≤ row + d.1 * 2 ∧ row + d.1 * 2 < 8 ∧
      0 ≤ col + d.2 * 2 ∧ col + d.2 * 2 < 8 ∧
      (∃ q, cellWrap b (row + d.1) (col + d.2) = some q ∧ q.color ≠ p.color) ∧
      cellWrap b (row + d.1 * 2) (col + d.2 * 2) = none := by
  unfold captureDests
  rw [List.mem_filterMap]
  constructor
  · rintro ⟨d, hd, hf⟩
    split at hf
    · next hcond =>
      injection hf with hf
      obtain ⟨h1, h2, h3, h4, h5, h6⟩ := hcond
      exact ⟨d, hd, hf.symm, h1, h2, h3, h4, h5, h6⟩
    · exact absurd hf (by simp)
  · rintro ⟨d, hd, rfl, h1, h2, h3, h4, h5, h6⟩
    exact ⟨d, hd, by rw [if_pos ⟨h1, h2, h3, h4, h5, h6⟩]⟩

theorem mem_simpleDests {b : BoardL} {row col : Int} {p : Piece} {m : Int × Int} :
    m ∈ simpleDests b row col p ↔ ∃ d ∈ pieceDirections p,
      m = (row + d.1, col + d.2) ∧
      0 ≤ row + d.1 ∧ row + d.1 < 8 ∧ 0 ≤ col + d.2 ∧ col + d.2 < 8 ∧
      cellWrap b (row + d.1) (col + d.2) = none := by
  unfold simpleDests
  rw [List.mem_filterMap]
  constructor
  · rintro ⟨d, hd, hf⟩
    split at hf
    · next hcond =>
      injection hf with hf
      obtain ⟨h1, h2, h3, h4, h5⟩ := hcond
      exact ⟨d, hd, hf.symm, h1, h2, h3, h4, h5⟩
    · exact absurd hf (by simp)
  · rintro ⟨d, hd, rfl, h1, h2, h3, h4, h5⟩
    exact ⟨d, hd, by rw [if_pos ⟨h1, h2, h3, h4, h5⟩]⟩

theorem mem_captureDests_shape {b : BoardL} {row col : Int} {p : Piece}
    {m : Int × Int} (h : m ∈ captureDests b row col p) :
    (0 ≤ m.1 ∧ m.1 < 8 ∧ 0 ≤ m.2 ∧ m.2 < 8) ∧
    (m.1 = row + 2 ∨ m.1 = row - 2) ∧ (m.2 = col + 2 ∨ m.2 = col - 2) := by
  obtain ⟨d, hd, rfl, h1, h2, h3, h4, _, _⟩ := mem_captureDests.mp h
  obtain ⟨hd1, hd2⟩ := mem_pieceDirections hd
  constructor
  · exact ⟨h1, h2, h3, h4⟩
  · exact ⟨by omega, by omega⟩

theorem mem_simpleDests_shape {b : BoardL} {row col : Int} {p : Piece}
    {m : Int × Int} (h : m ∈ simpleDests b row col p) :
    (0 ≤ m.1 ∧ m.1 < 8 ∧ 0 ≤ m.2 ∧ m.2 < 8) ∧
    (m.1 = row + 1 ∨ m.1 = row - 1) ∧ (m.2 = col + 1 ∨ m.2 = col - 1) := by
  obtain ⟨d, hd, rfl, h1, h2, h3, h4, _⟩ := mem_simpleDests.mp h
  obtain ⟨hd1, hd2⟩ := mem_pieceDirections hd
  constructor
  · exact ⟨h1, h2, h3, h4⟩
  · exact ⟨by omega, by omega⟩

theorem gpm_none {b : BoardL} {pl : Color} {row col : Int}
    (h : cellWrap b row col = none) (co : Bool) :
    get_piece_moves b pl row col co = [] := by
  unfold get_piece_moves
  rw [h]

theorem gpm_wrong_color {b : BoardL} {pl : Color} {row col : Int} {p : Piece}
    (hcell : cellWrap b row col = some p) (h : p.color ≠ pl) (co : Bool) :
    get_piece_moves b pl row col co = [] := by
  unfold get_piece_moves
  rw [hcell]
  dsimp only
  rw [if_pos h]

theorem gpm_true_eq {b : BoardL} {pl : Color} {row col : Int} {p : Piece}
    (hcell : cellWrap b row col = some p) (hcol : p.color = pl) :
    get_piece_moves b pl row col true = captureDests b row col p := by
  unfold get_piece_moves
  rw [hcell]
  dsimp only
  rw [if_neg (by simp [hcol]), if_pos (Or.inr rfl)]

theorem gpm_false_eq {b : BoardL} {pl : Color} {row col : Int} {p : Piece}
    (hcell : cellWrap b row col = some p) (hcol : p.color = pl) :
    get_piece_moves b pl row col false =
      if captureDests b row col p = [] then simpleDests b row col p
      else captureDests b row col p := by
  unfold get_piece_moves
  rw [hcell]
  dsimp only
  rw [if_neg (by simp [hcol])]
  by_cases hcap : captureDests b row col p = []
  · rw [if_neg (by simp [hcap]), if_pos hcap]
  · rw [if_pos (Or.inl hcap), if_neg hcap]

theorem gpm_mem_bounds {b : BoardL} {pl : Color} {row col : Int} {co : Bool}
    {m : Int × Int} (h : m ∈ get_piece_moves b pl row col co) :
    0 ≤ m.1 ∧ m.1 < 8 ∧ 0 ≤ m.2 ∧ m.2 < 8 := by
  unfold get_piece_moves at h
  cases hcell : cellWrap b row col with
  | none => rw [hcell] at h; exact absurd h (List.not_mem_nil m)
  | some p =>
    rw [hcell] at h
    dsimp only at h
    split at h
    · exact absurd h (List.not_mem_nil m)
    · split at h
      · exact (mem_captureDests_shape h).1
      · exact (mem_simpleDests_shape h).1

theorem gpm_true_empty_of_false_empty {b : BoardL} {pl : Color} {row col : Int}
    (h : get_piece_moves b pl row col false = []) :
    get_piece_moves b pl row col true = [] := by
  cases hcell : cellWrap b row col with
  | none => exact gpm_none hcell true
  | some p =>
    by_cases hcol : p.color = pl
    · rw [gpm_true_eq hcell hcol]
      rw [gpm_false_eq hcell hcol] at h
      by_cases hcap : captureDests b row col p = []
      · exact hcap
      · rw [if_neg hcap] at h; exact h
    · exact gpm_wrong_color hcell hcol true

/-! ### The capture and game-over scans -/

theorem check_for_captures_iff {b : BoardL} {pl : Color} :
    check_for_captures b pl = true ↔
    ∃ r, (0 ≤ r ∧ r < 8) ∧ ∃ c, (0 ≤ c ∧ c < 8) ∧ ∃ p,
      cellWrap b r c = some p ∧ p.color = pl ∧
      get_piece_moves b pl r c true ≠ [] := by
  unfold check_for_captures
  rw [List.any_eq_true]
  constructor
  · rintro ⟨r, hr, h⟩
    rw [List.any_eq_true] at h
    obtain ⟨c, hc, h⟩ := h
    cases hcell : cellWrap b r c with
    | none => rw [hcell] at h; exact absurd h (by simp)
    | some p =>
      rw [hcell] at h
      dsimp only at h
      rw [decide_eq_true_eq] at h
      exact ⟨r, mem_range8.mp hr, c, mem_range8.mp hc, p, hcell, h.1, h.2⟩
  · rintro ⟨r, hr, c, hc, p, hcell, hcol, hne⟩
    refine ⟨r, mem_range8.mpr hr, ?_⟩
    rw [List.any_eq_true]
    refine ⟨c, mem_range8.mpr hc, ?_⟩
    rw [hcell]
    dsimp only
    rw [decide_eq_true_eq]
    exact ⟨hcol, hne⟩

theorem check_for_captures_false {b : BoardL} {pl : Color}
    (h : check_for_captures b pl = false) :
    ∀ r c : Int, 0 ≤ r → r < 8 → 0 ≤ c → c < 8 → ∀ p,
      cellWrap b r c = some p → p.color = pl →
      get_piece_moves b pl r c true = [] := by
  intro r c hr0 hr8 hc0 hc8 p hcell hcol
  by_contra hne
  have : check_for_captures b pl = true :=
    check_for_captures_iff.mpr ⟨r, ⟨hr0, hr8⟩, c, ⟨hc0, hc8⟩, p, hcell, hcol, hne⟩
  rw [h] at this
  exact Bool.false_ne_true this

theorem is_game_over_iff {b : BoardL} {pl : Color} :
    is_game_over b pl = true ↔
    ∀ r c : Int, 0 ≤ r → r < 8 → 0 ≤ c → c < 8 → ∀ p,
      cellWrap b r c = some p → p.color = pl →
      get_piece_moves b pl r c false = [] := by
  unfold is_game_over
  rw [Bool.not_eq_true', List.any_eq_false]
  constructor
  · intro h r c hr0 hr8 hc0 hc8 p hcell hcol
    have hr := h r (mem_range8.mpr ⟨hr0, hr8⟩)
    rw [List.any_eq_true] at hr
    by_contra hne
    apply hr
    refine ⟨c, mem_range8.mpr ⟨hc0, hc8⟩, ?_⟩
    rw [hcell]
    dsimp only
    exact decide_eq_true ⟨hcol, hne⟩
  · intro h r hr
    rw [List.any_eq_true]
    rintro ⟨c, hc, hbody⟩
    obtain ⟨hr0, hr8⟩ := mem_range8.mp hr
    obtain ⟨hc0, hc8⟩ := mem_range8.mp hc
    cases hcell : cellWrap b r c with
    | none => rw [hcell] at hbody; exact absurd hbody (by simp)
    | some p =>
      rw [hcell] at hbody
      dsimp only at hbody
      rw [decide_eq_true_eq] at hbody
      exact hbody.2 (h r c hr0 hr8 hc0 hc8 p hcell hbody.1)

/-! ### Behavior of the two public operations -/

theorem otherColor_otherColor (c : Color) : otherColor (otherColor c) = c := by
  cases c <;> rfl

theorem otherColor_ne (c : Color) : otherColor c ≠ c := by
  cases c <;> simp [otherColor]

theorem end_turn_board (g : Game) : (end_turn g).board = g.board := by
  unfold end_turn
  dsimp only
  split <;> rfl

theorem end_turn_current (g : Game) :
    (end_turn g).current_player = otherColor g.current_player := by
  unfold end_turn
  dsimp only
  split <;> rfl

theorem end_turn_selected (g : Game) : (end_turn g).selected_piece = none := by
  unfold end_turn
  dsimp only
  split <;> rfl

theorem end_turn_valid (g : Game) : (end_turn g).valid_moves = [] := by
  unfold end_turn
  dsimp only
  split <;> rfl

theorem end_turn_must (g : Game) :
    (end_turn g).must_capture =
      check_for_captures g.board (otherColor g.current_player) := by
  unfold end_turn
  dsimp only
  split <;> rfl

theorem end_turn_winner (g : Game) :
    (end_turn g).winner =
      if is_game_over g.board (otherColor g.current_player) = true
      then some g.current_player else g.winner := by
  unfold end_turn
  dsimp only
  split
  · show some (otherColor (otherColor g.current_player)) = some g.current_player
    rw [otherColor_otherColor]
  · rfl

theorem select_false_noop {g : Game} {r c : Int} {g' : Game}
    (h : select_piece g r c = some (false, g')) : g' = g := by
  unfold select_piece at h
  cases hcell : cellRaise g.board r c with
  | none => rw [hcell] at h; exact absurd h (by simp)
  | some o =>
    rw [hcell] at h
    cases o with
    | none =>
      simp only [Option.some.injEq, Prod.mk.injEq] at h
      exact h.2.symm
    | some p =>
      dsimp only at h
      split at h
      · simp only [Option.some.injEq, Prod.mk.injEq] at h
        exact h.2.symm
      · split at h
        · split at h
          · simp only [Option.some.injEq, Prod.mk.injEq] at h
            exact h.2.symm
          · simp only [Option.some.injEq, Prod.mk.injEq] at h
            exact absurd h.1 (by simp)
        · simp only [Option.some.injEq, Prod.mk.injEq] at h
          exact absurd h.1 (by simp)

theorem select_true_shape {g : Game} {r c : Int} {g' : Game}
    (h : select_piece g r c = some (true, g')) :
    ∃ p, cellWrap g.board r c = some p ∧ p.color = g.current_player ∧
      (g.must_capture = true →
        get_piece_moves g.board g.current_player r c true ≠ []) ∧
      g' = { g with selected_piece := some (r, c)
                    valid_moves :=
                      get_piece_moves g.board g.current_player r c g.must_capture } := by
  unfold select_piece at h
  cases hcell : cellRaise g.board r c with
  | none => rw [hcell] at h; exact absurd h (by simp)
  | some o =>
    rw [hcell] at h
    cases o with
    | none =>
      simp only [Option.some.injEq, Prod.mk.injEq] at h
      exact absurd h.1 (by simp)
    | some p =>
      dsimp only at h
      have hwrap : cellWrap g.board r c = some p := by
        unfold cellWrap
        rw [hcell]
        rfl
      split at h
      · simp only [Option.some.injEq, Prod.mk.injEq] at h
        exact absurd h.1 (by simp)
      · next hcol =>
        rw [not_not] at hcol
        split at h
        · next hmust =>
          split at h
          · simp only [Option.some.injEq, Prod.mk.injEq] at h
            exact absurd h.1 (by simp)
          · next hmoves =>
            simp only [Option.some.injEq, Prod.mk.injEq] at h
            refine ⟨p, hwrap, hcol, fun _ => hmoves, ?_⟩
            rw [← h.2, hmust]
        · next hmust =>
          have hmf : g.must_capture = false := by
            revert hmust; cases g.must_capture <;> simp
          simp only [Option.some.injEq, Prod.mk.injEq] at h
          refine ⟨p, hwrap, hcol, fun hm => absurd hm hmust, ?_⟩
          rw [← h.2, hmf]

theorem move_false_noop {g : Game} {r c : Int} {g' : Game}
    (h : make_move g r c = some (false, g')) : g' = g := by
  unfold make_move at h
  cases hsel : g.selected_piece with
  | none =>
    rw [hsel] at h
    simp only [Option.some.injEq, Prod.mk.injEq] at h
    exact h.2.symm
  | some rc =>
    obtain ⟨orow, ocol⟩ := rc
    rw [hsel] at h
    dsimp only at h
    split at h
    · cases hcell : cellRaise g.board orow ocol with
      | none => rw [hcell] at h; exact absurd h (by simp)
      | some o =>
        rw [hcell] at h
        cases o with
        | none => exact absurd h (by simp)
        | some p =>
          dsimp only at h
          cases hb1 : setCell g.board r c (some (promoteIf p r)) with
          | none => rw [hb1] at h; exact absurd h (by simp)
          | some b1 =>
            rw [hb1] at h
            dsimp only at h
            cases hb2 : setCell b1 orow ocol none with
            | none => rw [hb2] at h; exact absurd h (by simp)
            | some b2 =>
              rw [hb2] at h
              dsimp only at h
              cases hb3 : (if (r - orow).natAbs = 2 then
                  setCell b2 ((r + orow) / 2) ((c + ocol) / 2) none
                else some b2) with
              | none => rw [hb3] at h; exact absurd h (by simp)
              | some b3 =>
                rw [hb3] at h
                dsimp only at h
                split at h
                · simp at h
                · simp at h
    · simp only [Option.some.injEq, Prod.mk.injEq] at h
      exact h.2.symm

theorem make_move_some_true {g : Game} {nr nc : Int} {g' : Game}
    (h : make_move g nr nc = some (true, g')) :
    ∃ orow ocol p b3,
      g.selected_piece = some (orow, ocol) ∧
      (nr, nc) ∈ g.valid_moves ∧
      cellWrap g.board orow ocol = some p ∧
      (∃ b1 b2,
        setCell g.board nr nc (some (promoteIf p nr)) = some b1 ∧
        setCell b1 orow ocol none = some b2 ∧
        ((if (nr - orow).natAbs = 2 then
            setCell b2 ((nr + orow) / 2) ((nc + ocol) / 2) none
          else some b2) = some b3)) ∧
      (((nr - orow).natAbs = 2 ∧
          can_continue_capture b3 g.current_player nr nc = true ∧
          g' = { g with board := b3
                        selected_piece := some (nr, nc)
                        valid_moves :=
                          get_piece_moves b3 g.current_player nr nc true }) ∨
        (¬((nr - orow).natAbs = 2 ∧
            can_continue_capture b3 g.current_player nr nc = true) ∧
          g' = end_turn { g with board := b3 })) := by
  unfold make_move at h
  cases hsel : g.selected_piece with
  | none =>
    rw [hsel] at h
    simp only [Option.some.injEq, Prod.mk.injEq] at h
    exact absurd h.1 (by simp)
  | some rc =>
    obtain ⟨orow, ocol⟩ := rc
    rw [hsel] at h
    dsimp only at h
    split at h
    · next hmem =>
      cases hcell : cellRaise g.board orow ocol with
      | none => rw [hcell] at h; exact absurd h (by simp)
      | some o =>
        rw [hcell] at h
        cases o with
        | none => exact absurd h (by simp)
        | some p =>
          dsimp only at h
          have hwrap : cellWrap g.board orow ocol = some p := by
            unfold cellWrap
            rw [hcell]
            rfl
          cases hb1 : setCell g.board nr nc (some (promoteIf p nr)) with
          | none => rw [hb1] at h; exact absurd h (by simp)
          | some b1 =>
            rw [hb1] at h
            dsimp only at h
            cases hb2 : setCell b1 orow ocol none with
            | none => rw [hb2] at h; exact absurd h (by simp)
            | some b2 =>
              rw [hb2] at h
              dsimp only at h
              cases hb3 : (if (nr - orow).natAbs = 2 then
                  setCell b2 ((nr + orow) / 2) ((nc + ocol) / 2) none
                else some b2) with
              | none => rw [hb3] at h; exact absurd h (by simp)
              | some b3 =>
                rw [hb3] at h
                dsimp only at h
                refine ⟨orow, ocol, p, b3, rfl, hmem, hwrap, ⟨b1, b2, hb1, hb2, hb3⟩, ?_⟩
                split at h
                · next hcond =>
                  simp only [Option.some.injEq, Prod.mk.injEq] at h
                  exact Or.inl ⟨hcond.1, hcond.2, h.2.symm⟩
                · next hcond =>
                  simp only [Option.some.injEq, Prod.mk.injEq] at h
                  exact Or.inr ⟨hcond, h.2.symm⟩
    · simp only [Option.some.injEq, Prod.mk.injEq] at h
      exact absurd h.1 (by simp)

/-! ### Invariant preservation -/

theorem promoteIf_color (p : Piece) (nr : Int) : (promoteIf p nr).color = p.color := by
  unfold promoteIf
  split <;> rfl

theorem promoteIf_king {p : Piece} (nr : Int) (h : p.king = true) :
    (promoteIf p nr).king = true := by
  unfold promoteIf
  split
  · rfl
  · exact h

theorem can_continue_iff {b : BoardL} {pl : Color} {r c : Int} :
    can_continue_capture b pl r c = true ↔ get_piece_moves b pl r c true ≠ [] := by
  unfold can_continue_capture
  exact ⟨fun h => of_decide_eq_true h, fun h => decide_eq_true h⟩

theorem gpm_mem_delta {b : BoardL} {pl : Color} {row col : Int} {co : Bool}
    {m : Int × Int} {p : Piece}
    (hcell : cellWrap b row col = some p) (hcol : p.color = pl)
    (h : m ∈ get_piece_moves b pl row col co) :
    ((m.1 = row + 2 ∨ m.1 = row - 2) ∧ (m.2 = col + 2 ∨ m.2 = col - 2)) ∨
    ((m.1 = row + 1 ∨ m.1 = row - 1) ∧ (m.2 = col + 1 ∨ m.2 = col - 1)) := by
  cases co with
  | true =>
    rw [gpm_true_eq hcell hcol] at h
    exact Or.inl (mem_captureDests_shape h).2
  | false =>
    rw [gpm_false_eq hcell hcol] at h
    split at h
    · exact Or.inr (mem_simpleDests_shape h).2
    · exact Or.inl (mem_captureDests_shape h).2

theorem inv_initGame : EngineInv initGame := by decide

theorem inv_select {g : Game} {r c : Int} {bb : Bool} {g' : Game}
    (hinv : EngineInv g) (hr0 : 0 ≤ r) (hr8 : r < 8) (hc0 : 0 ≤ c) (hc8 : c < 8)
    (h : select_piece g r c = some (bb, g')) : EngineInv g' := by
  cases bb with
  | false => rw [select_false_noop h]; exact hinv
  | true =>
    obtain ⟨p, hcell, hcol, _, rfl⟩ := select_true_shape h
    obtain ⟨hWF, hdark, hmc, _, hwin⟩ := hinv
    refine ⟨hWF, hdark, hmc, ?_, hwin⟩
    unfold SelInv
    dsimp only
    exact ⟨hr0, hr8, hc0, hc8, ⟨p, hcell, hcol⟩, rfl⟩

theorem inv_move {g : Game} {nr nc : Int} {bb : Bool} {g' : Game}
    (hinv : EngineInv g) (h : make_move g nr nc = some (bb, g')) :
    EngineInv g' := by
  cases bb with
  | false => rw [move_false_noop h]; exact hinv
  | true =>
    obtain ⟨orow, ocol, p, b3, hsel, hmem, hcell, ⟨b1, b2, hb1, hb2, hb3⟩, hres⟩ :=
      make_move_some_true h
    obtain ⟨hWF, hdark, hmc, hselinv, hwin⟩ := hinv
    unfold SelInv at hselinv
    rw [hsel] at hselinv
    dsimp only at hselinv
    obtain ⟨hor0, hor8, hoc0, hoc8, ⟨p0, hcell0, hcol0⟩, hvalid⟩ := hselinv
    rw [hcell] at hcell0
    injection hcell0 with hp0
    subst hp0
    rw [hvalid] at hmem
    have hbounds := gpm_mem_bounds hmem
    dsimp only at hbounds
    obtain ⟨hnr0, hnr8, hnc0, hnc8⟩ := hbounds
    have hdelta := gpm_mem_delta hcell hcol0 hmem
    dsimp only at hdelta
    have hrowne : nr ≠ orow := by rcases hdelta with ⟨hd1, _⟩ | ⟨hd1, _⟩ <;> omega
    obtain ⟨b1', hb1', hWF1, hchar1⟩ :=
      setCell_spec hWF hnr0 hnr8 hnc0 hnc8 (some (promoteIf p nr))
    rw [hb1] at hb1'
    injection hb1' with hb1e
    subst hb1e
    obtain ⟨b2', hb2', hWF2, hchar2⟩ := setCell_spec hWF1 hor0 hor8 hoc0 hoc8 none
    rw [hb2] at hb2'
    injection hb2' with hb2e
    subst hb2e
    have hkey : BoardWF b3 ∧
        (∀ r' c' : Int, 0 ≤ r' → r' < 8 → 0 ≤ c' → c' < 8 →
          cellWrap b3 r' c' = cellWrap b2 r' c' ∨ cellWrap b3 r' c' = none) ∧
        cellWrap b3 nr nc = cellWrap b2 nr nc := by
      by_cases hcap : (nr - orow).natAbs = 2
      · rw [if_pos hcap] at hb3
        obtain ⟨b3', hb3', hWF3, hchar3⟩ := setCell_spec hWF2
          (show 0 ≤ (nr + orow) / 2 by omega) (show (nr + orow) / 2 < 8 by omega)
          (show 0 ≤ (nc + ocol) / 2 by omega) (show (nc + ocol) / 2 < 8 by omega) none
        rw [hb3] at hb3'
        injection hb3' with hb3e
        subst hb3e
        refine ⟨hWF3, ?_, ?_⟩
        · intro r' c' h1 h2 h3 h4
          rw [hchar3 r' c' h1 h2 h3 h4]
          split
          · exact Or.inr rfl
          · exact Or.inl rfl
        · rw [hchar3 nr nc hnr0 hnr8 hnc0 hnc8, if_neg (by omega)]
      · rw [if_neg hcap] at hb3
        injection hb3 with hb3e
        subst hb3e
        exact ⟨hWF2, fun r' c' _ _ _ _ => Or.inl rfl, rfl⟩
    obtain ⟨hWF3, hchar23, hland23⟩ := hkey
    have hland : cellWrap b3 nr nc = some (promoteIf p nr) := by
      rw [hland23, hchar2 nr nc hnr0 hnr8 hnc0 hnc8,
        if_neg (fun hco => hrowne hco.1), hchar1 nr nc hnr0 hnr8 hnc0 hnc8,
        if_pos ⟨rfl, rfl⟩]
    have hdark3 : DarkOnly b3 := by
      intro r' hr' c' hc' hne
      obtain ⟨h1, h2⟩ := mem_range8.mp hr'
      obtain ⟨h3, h4⟩ := mem_range8.mp hc'
      rcases hchar23 r' c' h1 h2 h3 h4 with heq | heq
      · rw [heq, hchar2 r' c' h1 h2 h3 h4] at hne
        by_cases he2 : r' = orow ∧ c' = ocol
        · rw [if_pos he2] at hne; exact absurd rfl hne
        · rw [if_neg he2, hchar1 r' c' h1 h2 h3 h4] at hne
          by_cases he1 : r' = nr ∧ c' = nc
          · have hparo : (orow + ocol) % 2 = 1 :=
              hdark orow (mem_range8.mpr ⟨hor0, hor8⟩) ocol
                (mem_range8.mpr ⟨hoc0, hoc8⟩) (by rw [hcell]; simp)
            have he1a := he1.1
            have he1b := he1.2
            rcases hdelta with ⟨hd1, hd2⟩ | ⟨hd1, hd2⟩ <;> omega
          · rw [if_neg he1] at hne
            exact hdark r' hr' c' hc' hne
      · rw [heq] at hne; exact absurd rfl hne
    have hwinnone : g.winner = none := by
      by_contra hn
      have hgo := hwin hn
      rw [is_game_over_iff] at hgo
      have hempty := hgo orow ocol hor0 hor8 hoc0 hoc8 p hcell hcol0
      cases hmust : g.must_capture with
      | false =>
        rw [hmust, hempty] at hmem
        exact absurd hmem (List.not_mem_nil _)
      | true =>
        rw [hmust, gpm_true_empty_of_false_empty hempty] at hmem
        exact absurd hmem (List.not_mem_nil _)
    rcases hres with ⟨hcap, hcont, rfl⟩ | ⟨hnotchain, rfl⟩
    · have hmust : g.must_capture = true := by
        cases hmu : g.must_capture with
        | true => rfl
        | false =>
          exfalso
          rw [hmu] at hmc hmem
          have hnocap := check_for_captures_false hmc.symm orow ocol
            hor0 hor8 hoc0 hoc8 p hcell hcol0
          rw [gpm_true_eq hcell hcol0] at hnocap
          rw [gpm_false_eq hcell hcol0, if_pos hnocap] at hmem
          have hs := (mem_simpleDests_shape hmem).2.1
          dsimp only at hs
          omega
      have hcheck3 : check_for_captures b3 g.current_player = true := by
        apply check_for_captures_iff.mpr
        exact ⟨nr, ⟨hnr0, hnr8⟩, nc, ⟨hnc0, hnc8⟩, promoteIf p nr, hland,
          by rw [promoteIf_color]; exact hcol0, can_continue_iff.mp hcont⟩
      refine ⟨hWF3, hdark3, ?_, ?_, ?_⟩
      · show g.must_capture = check_for_captures b3 g.current_player
        rw [hmust, hcheck3]
      · unfold SelInv
        dsimp only
        refine ⟨hnr0, hnr8, hnc0, hnc8,
          ⟨promoteIf p nr, hland, by rw [promoteIf_color]; exact hcol0⟩, ?_⟩
        show get_piece_moves b3 g.current_player nr nc true =
          get_piece_moves b3 g.current_player nr nc g.must_capture
        rw [hmust]
      · intro hn
        exact absurd hwinnone hn
    · refine ⟨?_, ?_, ?_, ?_, ?_⟩
      · rw [end_turn_board]; exact hWF3
      · rw [end_turn_board]; exact hdark3
      · rw [end_turn_must, end_turn_board, end_turn_current]
      · unfold SelInv
        rw [end_turn_selected]
        dsimp only
        exact end_turn_valid _
      · intro hn
        rw [end_turn_winner] at hn
        rw [end_turn_board, end_turn_current]
        split at hn
        · next hgo => exact hgo
        · exact absurd hwinnone hn

theorem reachable_inv {g : Game} (h : Reachable g) : EngineInv g := by
  induction h with
  | init => exact inv_initGame
  | select g r c b g' hre hr0 hr8 hc0 hc8 heq ih =>
    exact inv_select ih hr0 hr8 hc0 hc8 heq
  | move g r c b g' hre heq ih => exact inv_move ih heq

theorem select_piece_isSome {g : Game} (hinv : EngineInv g) {r c : Int}
    (hr0 : -8 ≤ r) (hr8 : r < 8) (hc0 : -8 ≤ c) (hc8 : c < 8) :
    (select_piece g r c).isSome = true := by
  obtain ⟨hWF, _, _, _, _⟩ := hinv
  obtain ⟨v, hv⟩ := cellRaise_isSome hWF hr0 hr8 hc0 hc8
  unfold select_piece
  rw [hv]
  cases v with
  | none => rfl
  | some p =>
    dsimp only
    split
    · rfl
    · split
      · split
        · rfl
        · rfl
      · rfl

theorem make_move_isSome {g : Game} (hinv : EngineInv g) (nr nc : Int) :
    (make_move g nr nc).isSome = true := by
  obtain ⟨hWF, hdark, hmc, hselinv, hwin⟩ := hinv
  unfold make_move
  cases hsel : g.selected_piece with
  | none => rfl
  | some rc =>
    obtain ⟨orow, ocol⟩ := rc
    dsimp only
    split
    · next hmem =>
      unfold SelInv at hselinv
      rw [hsel] at hselinv
      dsimp only at hselinv
      obtain ⟨hor0, hor8, hoc0, hoc8, ⟨p, hcellp, hcolp⟩, hvalid⟩ := hselinv
      rw [cellWrap_some_cellRaise hcellp]
      dsimp only
      rw [hvalid] at hmem
      have hb := gpm_mem_bounds hmem
      dsimp only at hb
      obtain ⟨hnr0, hnr8, hnc0, hnc8⟩ := hb
      obtain ⟨b1, hb1, hWF1, _⟩ :=
        setCell_spec hWF hnr0 hnr8 hnc0 hnc8 (some (promoteIf p nr))
      rw [hb1]
      dsimp only
      obtain ⟨b2, hb2, hWF2, _⟩ := setCell_spec hWF1 hor0 hor8 hoc0 hoc8 none
      rw [hb2]
      dsimp only
      by_cases hcap : (nr - orow).natAbs = 2
      · rw [if_pos hcap]
        obtain ⟨b3, hb3, _, _⟩ := setCell_spec hWF2
          (show 0 ≤ (nr + orow) / 2 by omega) (show (nr + orow) / 2 < 8 by omega)
          (show 0 ≤ (nc + ocol) / 2 by omega) (show (nc + ocol) / 2 < 8 by omega) none
        rw [hb3]
        dsimp only
        split <;> rfl
      · rw [if_neg hcap]
        dsimp only
        split <;> rfl
    · rfl

/-! ### Reachability of the concrete line states -/

theorem reachable_wA1 : Reachable wA1 :=
  Reachable.select initGame 5 2 true wA1 Reachable.init (by norm_num)
    (by norm_num) (by norm_num) (by norm_num) (by decide)

theorem reachable_wA2 : Reachable wA2 :=
  Reachable.move wA1 4 3 true wA2 reachable_wA1 (by decide)

theorem reachable_wA3 : Reachable wA3 :=
  Reachable.select wA2 2 1 true wA3 reachable_wA2 (by norm_num)
    (by norm_num) (by norm_num) (by norm_num) (by decide)

theorem reachable_wA4 : Reachable wA4 :=
  Reachable.move wA3 3 2 true wA4 reachable_wA3 (by decide)

theorem reachable_wB1 : Reachable wB1 :=
  Reachable.select initGame 5 4 true wB1 Reachable.init (by norm_num)
    (by norm_num) (by norm_num) (by norm_num) (by decide)

theorem reachable_wB2 : Reachable wB2 :=
  Reachable.move wB1 4 3 true wB2 reachable_wB1 (by decide)

theorem reachable_wB3 : Reachable wB3 :=
  Reachable.select wB2 2 7 true wB3 reachable_wB2 (by norm_num)
    (by norm_num) (by norm_num) (by norm_num) (by decide)

theorem reachable_wB4 : Reachable wB4 :=
  Reachable.move wB3 3 6 true wB4 reachable_wB3 (by decide)

theorem reachable_wB5 : Reachable wB5 :=
  Reachable.select wB4 6 5 true wB5 reachable_wB4 (by norm_num)
    (by norm_num) (by norm_num) (by norm_num) (by decide)

theorem reachable_wB6 : Reachable wB6 :=
  Reachable.move wB5 5 4 true wB6 reachable_wB5 (by decide)

theorem reachable_wB7 : Reachable wB7 :=
  Reachable.select wB6 3 6 true wB7 reachable_wB6 (by norm_num)
    (by norm_num) (by norm_num) (by norm_num) (by decide)

theorem reachable_wB8 : Reachable wB8 :=
  Reachable.move wB7 4 7 true wB8 reachable_wB7 (by decide)

theorem reachable_wB9 : Reachable wB9 :=
  Reachable.select wB8 4 3 true wB9 reachable_wB8 (by norm_num)
    (by norm_num) (by norm_num) (by norm_num) (by decide)

theorem reachable_wB10 : Reachable wB10 :=
  Reachable.move wB9 3 2 true wB10 reachable_wB9 (by decide)

theorem reachable_wB11 : Reachable wB11 :=
  Reachable.select wB10 2 1 true wB11 reachable_wB10 (by norm_num)
    (by norm_num) (by norm_num) (by norm_num) (by decide)

theorem reachable_wB12 : Reachable wB12 :=
  Reachable.move wB11 4 3 true wB12 reachable_wB11 (by decide)

theorem reachable_wB13 : Reachable wB13 :=
  Reachable.select wB12 4 7 true wB13 reachable_wB12 (by norm_num)
    (by norm_num) (by norm_num) (by norm_num) (by decide)


/-! ### Serialization round-trip -/

theorem ser_deser_cell (o : Option Piece) :
    Option.map pieceSerialize (Option.map pieceDeserialize (Option.map pieceSerialize o)) =
      Option.map pieceSerialize o := by
  cases o <;> rfl

theorem ser_deser_row (row : List (Option Piece)) :
    ((row.map (Option.map pieceSerialize)).map (Option.map pieceDeserialize)).map
        (Option.map pieceSerialize) =
      row.map (Option.map pieceSerialize) := by
  induction row with
  | nil => rfl
  | cons a t ih => simp only [List.map_cons, ih, ser_deser_cell]

theorem ser_deser_board (b : BoardL) :
    ((b.map fun row => row.map (Option.map pieceSerialize)).map
        (fun row => row.map (Option.map pieceDeserialize))).map
        (fun row => row.map (Option.map pieceSerialize)) =
      b.map fun row => row.map (Option.map pieceSerialize) := by
  induction b with
  | nil => rfl
  | cons a t ih => simp only [List.map_cons, ih, ser_deser_row]

/-! ### The claims -/

/-- Claim C6: snapshot round-trip — serializing the game obtained by
deserializing a snapshot produced by `serialize` yields that snapshot back,
on all six fields.  (Proved for the snapshot of an arbitrary game state,
which subsumes the reachable ones.) -/
theorem claim_C6 (g : Game) :
    serialize (deserialize (serialize g)) = serialize g := by
  unfold serialize deserialize
  dsimp only
  rw [Snapshot.mk.injEq]
  exact ⟨ser_deser_board g.board, rfl, rfl, rfl, rfl, rfl⟩

/-- Claim C7: rejected operations are atomic no-ops — whenever
`select_piece` or `make_move` returns `false`, the resulting state equals
the input state in every component. -/
theorem claim_C7 (g : Game) (r c : Int) (g' : Game) :
    (select_piece g r c = some (false, g') → g' = g) ∧
    (make_move g r c = some (false, g') → g' = g) :=
  ⟨select_false_noop, move_false_noop⟩

theorem claim_C7_witness :
    select_piece initGame 0 0 = some (false, initGame) ∧ initGame = initGame :=
  ⟨by decide, (claim_C7 initGame 0 0 initGame).1 (by decide)⟩

/-- Claim C8: dark-square invariant — in every reachable state, every
square holding a piece has `row + col` odd. -/
theorem claim_C8 {g : Game} (h : Reachable g) :
    ∀ r c : Int, 0 ≤ r → r < 8 → 0 ≤ c → c < 8 →
      cellWrap g.board r c ≠ none → (r + c) % 2 = 1 := by
  intro r c hr0 hr8 hc0 hc8 hne
  exact (reachable_inv h).2.1 r (mem_range8.mpr ⟨hr0, hr8⟩)
    c (mem_range8.mpr ⟨hc0, hc8⟩) hne

theorem claim_C8_witness :
    cellWrap initGame.board 0 1 ≠ none ∧ ((0 : Int) + 1) % 2 = 1 :=
  ⟨by decide, claim_C8 Reachable.init 0 1 (by norm_num) (by norm_num)
    (by norm_num) (by norm_num) (by decide)⟩

/-- Claim C2: forced capture globally — in every reachable state where the
capture scan finds a capture for the current player, selecting a
current-player piece that itself has no capture is rejected, with the state
unchanged. -/
theorem claim_C2 {g : Game} (hre : Reachable g)
    (hcap : check_for_captures g.board g.current_player = true)
    (r c : Int) (p : Piece)
    (hcell : cellWrap g.board r c = some p)
    (hcol : p.color = g.current_player)
    (hnone : get_piece_moves g.board g.current_player r c true = []) :
    select_piece g r c = some (false, g) := by
  have hmc := (reachable_inv hre).2.2.1
  have hmust : g.must_capture = true := by rw [hmc, hcap]
  unfold select_piece
  rw [cellWrap_some_cellRaise hcell]
  dsimp only
  rw [if_neg (not_not_intro hcol), if_pos hmust, if_pos hnone]

theorem claim_C2_witness :
    check_for_captures wA4.board wA4.current_player = true ∧
    cellWrap wA4.board 5 0 = some ⟨Color.red, false⟩ ∧
    get_piece_moves wA4.board wA4.current_player 5 0 true = [] ∧
    select_piece wA4 5 0 = some (false, wA4) :=
  ⟨by decide, by decide, by decide,
    claim_C2 reachable_wA4 (by decide) 5 0 ⟨Color.red, false⟩
      (by decide) (by decide) (by decide)⟩

/-- A turn-ending accepted move can only happen while `winner` is still
unset: in a game-over state `valid_moves` is empty, so nothing is accepted. -/
theorem accepted_move_winner_none {g : Game} {nr nc : Int} {g' : Game}
    (hinv : EngineInv g) (h : make_move g nr nc = some (true, g')) :
    g.winner = none := by
  obtain ⟨orow, ocol, p, b3, hsel, hmem, hcell, _, _⟩ := make_move_some_true h
  obtain ⟨hWF, hdark, hmc, hselinv, hwin⟩ := hinv
  unfold SelInv at hselinv
  rw [hsel] at hselinv
  dsimp only at hselinv
  obtain ⟨hor0, hor8, hoc0, hoc8, ⟨p0, hcell0, hcol0⟩, hvalid⟩ := hselinv
  rw [hcell] at hcell0
  injection hcell0 with hp0
  subst hp0
  rw [hvalid] at hmem
  by_contra hn
  have hgo := hwin hn
  rw [is_game_over_iff] at hgo
  have hempty := hgo orow ocol hor0 hor8 hoc0 hoc8 p hcell hcol0
  cases hmust : g.must_capture with
  | false =>
    rw [hmust, hempty] at hmem
    exact absurd hmem (List.not_mem_nil _)
  | true =>
    rw [hmust, gpm_true_empty_of_false_empty hempty] at hmem
    exact absurd hmem (List.not_mem_nil _)

/-- Claim C3: chain continuation — whenever `make_move` accepts a jump and
the moved piece (after any promotion) still has a capture from the landing
square, the player does not change, the selection becomes the landing
square, and the offered moves are exactly the capture-only moves from
there.  Holds for every state, reachable or not. -/
theorem claim_C3 {g : Game} {orow ocol nr nc : Int} {g' : Game}
    (hsel : g.selected_piece = some (orow, ocol))
    (hmv : make_move g nr nc = some (true, g'))
    (hjump : (nr - orow).natAbs = 2)
    (hcont : get_piece_moves g'.board g.current_player nr nc true ≠ []) :
    g'.current_player = g.current_player ∧
    g'.selected_piece = some (nr, nc) ∧
    g'.valid_moves = get_piece_moves g'.board g.current_player nr nc true := by
  obtain ⟨or2, oc2, p, b3, hsel2, hmem, hcell, hbs, hres⟩ := make_move_some_true hmv
  rw [hsel] at hsel2
  simp only [Option.some.injEq, Prod.mk.injEq] at hsel2
  obtain ⟨rfl, rfl⟩ := hsel2
  rcases hres with ⟨hc1, hc2, rfl⟩ | ⟨hnot, rfl⟩
  · exact ⟨rfl, rfl, rfl⟩
  · exfalso
    apply hnot
    refine ⟨hjump, ?_⟩
    rw [can_continue_iff]
    rw [end_turn_board] at hcont
    exact hcont

theorem claim_C3_witness :
    handGame.selected_piece = some (5, 4) ∧
    make_move handGame 3 2 = some (true, stepMove handGame 3 2) ∧
    ((3 : Int) - 5).natAbs = 2 ∧
    get_piece_moves (stepMove handGame 3 2).board handGame.current_player
      3 2 true ≠ [] ∧
    ((stepMove handGame 3 2).current_player = handGame.current_player ∧
      (stepMove handGame 3 2).selected_piece = some (3, 2) ∧
      (stepMove handGame 3 2).valid_moves =
        get_piece_moves (stepMove handGame 3 2).board handGame.current_player
          3 2 true) :=
  ⟨by decide, by decide, by decide, by decide,
    @claim_C3 handGame 5 4 3 2 (stepMove handGame 3 2)
      (by decide) (by decide) (by decide) (by decide)⟩

/-- Claim C4 counterexample: `select_piece(8, 0)` on the fresh game indexes
`self.board[8]` and raises `IndexError` (modelled as `none`), so the
operations do not return a boolean on every integer input. -/
theorem claim_C4_counterexample : select_piece initGame 8 0 = none := by decide

/-- Claim C4 amended: on every reachable state `make_move` returns a
boolean without raising for all integer inputs, and `select_piece` returns
a boolean for row and col in `[-8, 7]` (the non-raising Python index range
of an 8-element list; negative values wrap); row or col outside that range
raises `IndexError`. -/
theorem claim_C4_amended {g : Game} (hre : Reachable g) :
    (∀ nr nc : Int, (make_move g nr nc).isSome = true) ∧
    (∀ r c : Int, -8 ≤ r → r < 8 → -8 ≤ c → c < 8 →
      (select_piece g r c).isSome = true) := by
  have hinv := reachable_inv hre
  exact ⟨fun nr nc => make_move_isSome hinv nr nc,
    fun r c h1 h2 h3 h4 => select_piece_isSome hinv h1 h2 h3 h4⟩

theorem claim_C4_amended_witness :
    (make_move initGame 99 (-5)).isSome = true ∧
    (select_piece initGame (-1) (-2)).isSome = true :=
  ⟨(claim_C4_amended Reachable.init).1 99 (-5),
    (claim_C4_amended Reachable.init).2 (-1) (-2) (by norm_num) (by norm_num)
      (by norm_num) (by norm_num)⟩

/-- Claim C5: win detection at turn end — when an accepted move switches
the player, the winner field is set to the mover exactly when the new
current player has no legal destination on any of their pieces (and then
`is_game_over` holds); otherwise `winner` remains null. -/
theorem claim_C5 {g : Game} {nr nc : Int} {g' : Game}
    (hre : Reachable g)
    (hmv : make_move g nr nc = some (true, g'))
    (hswitch : g'.current_player ≠ g.current_player) :
    ((∀ r c : Int, 0 ≤ r → r < 8 → 0 ≤ c → c < 8 → ∀ p,
        cellWrap g'.board r c = some p → p.color = g'.current_player →
        get_piece_moves g'.board g'.current_player r c false = []) →
      g'.winner = some g.current_player ∧
      is_game_over g'.board g'.current_player = true) ∧
    ((¬ ∀ r c : Int, 0 ≤ r → r < 8 → 0 ≤ c → c < 8 → ∀ p,
        cellWrap g'.board r c = some p → p.color = g'.current_player →
        get_piece_moves g'.board g'.current_player r c false = []) →
      g'.winner = none) := by
  have hinv := reachable_inv hre
  have hwn := accepted_move_winner_none hinv hmv
  obtain ⟨orow, ocol, p, b3, hsel, hmem, hcell, hbs, hres⟩ := make_move_some_true hmv
  rcases hres with ⟨_, _, rfl⟩ | ⟨hnot, rfl⟩
  · exact absurd rfl hswitch
  · constructor
    · intro hall
      have hgo := is_game_over_iff.mpr hall
      rw [end_turn_board, end_turn_current] at hgo
      constructor
      · rw [end_turn_winner, if_pos hgo]
      · exact is_game_over_iff.mpr hall
    · intro hnall
      have hgo : ¬ is_game_over ({ g with board := b3 } : Game).board
          (otherColor ({ g with board := b3 } : Game).current_player) = true := by
        intro ht
        apply hnall
        rw [← end_turn_board, ← end_turn_current] at ht
        exact is_game_over_iff.mp ht
      rw [end_turn_winner, if_neg hgo]
      exact hwn

theorem claim_C5_witness : wA2.winner = none :=
  (@claim_C5 wA1 4 3 wA2 reachable_wA1 (by decide) (by decide)).2
    (fun hall => absurd
      (hall 2 3 (by norm_num) (by norm_num) (by norm_num) (by norm_num)
        ⟨Color.black, false⟩ (by decide) (by decide))
      (by decide))

/-- Claim C1 counterexample: in the reachable state `wB11` black has
selected (2,1) and jumps to (4,3), capturing a red piece; the chain
continues (the player does not switch and the selection moves to the
landing square (4,3)) — but selecting the other black piece at (4,7),
which also has a capture, is *accepted* and moves the selection away from
the landing square, contradicting the claim that any other square is
rejected. -/
theorem claim_C1_counterexample :
    Reachable wB11 ∧
    wB11.selected_piece = some (2, 1) ∧
    make_move wB11 4 3 = some (true, wB12) ∧
    wB12.current_player = wB11.current_player ∧
    wB12.selected_piece = some (4, 3) ∧
    get_piece_moves wB12.board wB12.current_player 4 3 true ≠ [] ∧
    ((4, 7) : Int × Int) ≠ (4, 3) ∧
    select_piece wB12 4 7 = some (true, wB13) ∧
    wB13.selected_piece = some (4, 7) :=
  ⟨reachable_wB11, by decide, by decide, by decide, by decide, by decide,
    by decide, by decide, by decide⟩

/-- Claim C1 amended: after an accepted chain-continuing jump (the current
player unchanged), the selection is set to the landing square with its
capture-only moves offered, and `select_piece` on any in-bounds square that
does not hold a current-player piece with an available capture is rejected
without changing the state — but the engine does not restrict selection to
the chaining piece: a different current-player piece that also has a
capture may be selected (see the counterexample). -/
theorem claim_C1_amended {g : Game} {nr nc : Int} {g' : Game}
    (hre : Reachable g)
    (hmv : make_move g nr nc = some (true, g'))
    (hsame : g'.current_player = g.current_player) :
    g'.selected_piece = some (nr, nc) ∧
    g'.valid_moves = get_piece_moves g'.board g'.current_player nr nc true ∧
    ∀ r c : Int, 0 ≤ r → r < 8 → 0 ≤ c → c < 8 →
      get_piece_moves g'.board g'.current_player r c true = [] →
      select_piece g' r c = some (false, g') := by
  have hinv := reachable_inv hre
  have hinv' : EngineInv g' := inv_move hinv hmv
  obtain ⟨orow, ocol, p, b3, hsel, hmem, hcell, hbs, hres⟩ := make_move_some_true hmv
  rcases hres with ⟨hcap, hcont, heq⟩ | ⟨hnot, heq⟩
  swap
  · rw [heq, end_turn_current] at hsame
    exact absurd hsame (otherColor_ne _)
  · obtain ⟨hWF', hdark', hmc', hselinv', hwin'⟩ := hinv'
    have hselq : g'.selected_piece = some (nr, nc) := by rw [heq]
    have hcurq : g'.current_player = g.current_player := by rw [heq]
    have hmustq : g'.must_capture = g.must_capture := by rw [heq]
    have hboardq : g'.board = b3 := by rw [heq]
    unfold SelInv at hselinv'
    rw [hselq] at hselinv'
    dsimp only at hselinv'
    obtain ⟨hnr0, hnr8, hnc0, hnc8, ⟨q, hq, hqcol⟩, hvalid'⟩ := hselinv'
    refine ⟨hselq, ?_, ?_⟩
    · rw [heq]
    · intro r c h1 h2 h3 h4 hnone
      have hmust' : g'.must_capture = true := by
        cases hmu : g'.must_capture with
        | true => rfl
        | false =>
          exfalso
          have hmc2 : check_for_captures g'.board g'.current_player = false := by
            rw [← hmu]
            exact hmc'.symm
          have hempty := check_for_captures_false hmc2 nr nc hnr0 hnr8
            hnc0 hnc8 q hq hqcol
          apply can_continue_iff.mp hcont
          rw [hboardq, hcurq] at hempty
          exact hempty
      unfold select_piece
      obtain ⟨v, hv⟩ := cellRaise_isSome hWF' (by omega) h2 (by omega) h4
      rw [cellRaise_eq_cellWrap ⟨v, hv⟩]
      cases hcw : cellWrap g'.board r c with
      | none => rfl
      | some q2 =>
        dsimp only
        by_cases hqc : q2.color = g'.current_player
        · rw [if_neg (not_not_intro hqc), if_pos hmust', if_pos hnone]
        · rw [if_pos hqc]

theorem claim_C1_amended_witness :
    wB12.selected_piece = some (4, 3) ∧
    wB12.valid_moves = get_piece_moves wB12.board wB12.current_player 4 3 true ∧
    select_piece wB12 0 1 = some (false, wB12) := by
  have h := @claim_C1_amended wB11 4 3 wB12 reachable_wB11 (by decide) (by decide)
  exact ⟨h.1, h.2.1, h.2.2 0 1 (by norm_num) (by norm_num) (by norm_num)
    (by norm_num) (by decide)⟩

/-- Claim C9: promotion is permanent and direction-changing — a move never
lowers any piece's king flag (every piece on the resulting board is either
an untouched piece of the old board or the moved piece, whose king flag is
preserved or raised by promotion); `select_piece` never changes the board;
and a king's direction list is always all four diagonal unit vectors,
regardless of color. -/
theorem claim_C9 :
    (∀ (g : Game) (nr nc : Int) (bb : Bool) (g' : Game), Reachable g →
      make_move g nr nc = some (bb, g') →
      ∀ r c : Int, 0 ≤ r → r < 8 → 0 ≤ c → c < 8 → ∀ p',
        cellWrap g'.board r c = some p' →
          cellWrap g.board r c = some p' ∨
          ∃ orow ocol p, g.selected_piece = some (orow, ocol) ∧
            cellWrap g.board orow ocol = some p ∧ p'.color = p.color ∧
            (p.king = true → p'.king = true)) ∧
    (∀ (g : Game) (r c : Int) (bb : Bool) (g' : Game),
      select_piece g r c = some (bb, g') → g'.board = g.board) ∧
    (∀ p : Piece, p.king = true →
      pieceDirections p = [(-1, -1), (-1, 1), (1, -1), (1, 1)]) := by
  refine ⟨?_, ?_, ?_⟩
  · intro g nr nc bb g' hre hmv r c h1 h2 h3 h4 p' hp'
    cases bb with
    | false =>
      rw [move_false_noop hmv] at hp'
      exact Or.inl hp'
    | true =>
      have hinv := reachable_inv hre
      obtain ⟨orow, ocol, p, b3, hsel, hmem, hcell, hbs, hres⟩ :=
        make_move_some_true hmv
      obtain ⟨hWF, hdark, hmc, hselinv, hwin⟩ := hinv
      unfold SelInv at hselinv
      rw [hsel] at hselinv
      dsimp only at hselinv
      obtain ⟨hor0, hor8, hoc0, hoc8, ⟨p0, hcell0, hcol0⟩, hvalid⟩ := hselinv
      rw [hcell] at hcell0
      injection hcell0 with hp0
      subst hp0
      rw [hvalid] at hmem
      have hb := gpm_mem_bounds hmem
      dsimp only at hb
      obtain ⟨hnr0, hnr8, hnc0, hnc8⟩ := hb
      obtain ⟨b1, b2, hb1, hb2, hb3⟩ := hbs
      obtain ⟨b1', hb1', hWF1, hchar1⟩ :=
        setCell_spec hWF hnr0 hnr8 hnc0 hnc8 (some (promoteIf p nr))
      rw [hb1] at hb1'
      injection hb1' with e1
      subst e1
      obtain ⟨b2', hb2', hWF2, hchar2⟩ := setCell_spec hWF1 hor0 hor8 hoc0 hoc8 none
      rw [hb2] at hb2'
      injection hb2' with e2
      subst e2
      have hboard : g'.board = b3 := by
        rcases hres with ⟨_, _, heq⟩ | ⟨_, heq⟩
        · rw [heq]
        · rw [heq]
          exact end_turn_board _
      rw [hboard] at hp'
      have hcommon : cellWrap b2 r c = some p' →
          cellWrap g.board r c = some p' ∨
          ∃ orow ocol p, g.selected_piece = some (orow, ocol) ∧
            cellWrap g.board orow ocol = some p ∧ p'.color = p.color ∧
            (p.king = true → p'.king = true) := by
        intro hp2
        rw [hchar2 r c h1 h2 h3 h4] at hp2
        split at hp2
        · exact absurd hp2 (by simp)
        · rw [hchar1 r c h1 h2 h3 h4] at hp2
          split at hp2
          · injection hp2 with hpp
            refine Or.inr ⟨orow, ocol, p, hsel, hcell, ?_, ?_⟩
            · rw [← hpp, promoteIf_color]
            · intro hk
              rw [← hpp]
              exact promoteIf_king nr hk
          · exact Or.inl hp2
      by_cases hcap : (nr - orow).natAbs = 2
      · rw [if_pos hcap] at hb3
        obtain ⟨b3', hb3', hWF3, hchar3⟩ := setCell_spec hWF2
          (show 0 ≤ (nr + orow) / 2 by omega) (show (nr + orow) / 2 < 8 by omega)
          (show 0 ≤ (nc + ocol) / 2 by omega) (show (nc + ocol) / 2 < 8 by omega)
          none
        rw [hb3] at hb3'
        injection hb3' with e3
        subst e3
        rw [hchar3 r c h1 h2 h3 h4] at hp'
        split at hp'
        · exact absurd hp' (by simp)
        · exact hcommon hp'
      · rw [if_neg hcap] at hb3
        injection hb3 with e3
        subst e3
        exact hcommon hp'
  · intro g r c bb g' h
    cases bb with
    | false => rw [select_false_noop h]
    | true =>
      obtain ⟨p, _, _, _, rfl⟩ := select_true_shape h
      rfl
  · intro p hk
    exact pieceDirections_king hk

theorem claim_C9_witness :
    cellWrap wA2.board 4 3 = some ⟨Color.red, false⟩ ∧
    (cellWrap wA1.board 4 3 = some ⟨Color.red, false⟩ ∨
      ∃ orow ocol p, wA1.selected_piece = some (orow, ocol) ∧
        cellWrap wA1.board orow ocol = some p ∧
        (⟨Color.red, false⟩ : Piece).color = p.color ∧
        (p.king = true → (⟨Color.red, false⟩ : Piece).king = true)) :=
  ⟨by decide,
    claim_C9.1 wA1 4 3 true wA2 reachable_wA1 (by decide) 4 3 (by norm_num)
      (by norm_num) (by norm_num) (by norm_num) ⟨Color.red, false⟩ (by decide)⟩

theorem is_valid_position_iff {r c : Int} :
    is_valid_position r c = true ↔ 0 ≤ r ∧ r < 8 ∧ 0 ≤ c ∧ c < 8 := by
  unfold is_valid_position
  exact ⟨of_decide_eq_true, decide_eq_true⟩

/-- Claim C10: the two move-generation implementations agree — for an
in-bounds square holding a piece of the given player, the destination set
computed by `CheckersGame._get_piece_moves` equals the one computed by
`Board.get_valid_moves` on the same grid, for both values of the
capture-only flag. -/
theorem claim_C10 (b : BoardL) (player : Color) (r c : Int) (p : Piece)
    (co : Bool) (hr0 : 0 ≤ r) (hr8 : r < 8) (hc0 : 0 ≤ c) (hc8 : c < 8)
    (hcell : cellWrap b r c = some p) (hcol : p.color = player)
    (m : Int × Int) :
    m ∈ get_piece_moves b player r c co ↔ m ∈ board_get_valid_moves b r c co := by
  have hbg : board_get_piece b r c = some p := by
    unfold board_get_piece
    rw [if_pos (is_valid_position_iff.mpr ⟨hr0, hr8, hc0, hc8⟩)]
    exact hcell
  have hcaps : captureDests b r c p =
      (get_move_directions p).filterMap fun d =>
        board_check_capture b r c d.1 d.2 p.color := by
    unfold captureDests
    rw [pieceDirections_eq_get_move_directions]
    apply List.filterMap_congr
    intro d hd
    rw [← pieceDirections_eq_get_move_directions] at hd
    obtain ⟨hd1, hd2⟩ := mem_pieceDirections hd
    unfold board_check_capture
    by_cases hjv : 0 ≤ r + d.1 * 2 ∧ r + d.1 * 2 < 8 ∧
        0 ≤ c + d.2 * 2 ∧ c + d.2 * 2 < 8
    · rw [if_pos (is_valid_position_iff.mpr hjv)]
      have hmv : is_valid_position (r + d.1) (c + d.2) = true :=
        is_valid_position_iff.mpr (by
          obtain ⟨a1, a2, a3, a4⟩ := hjv
          rcases hd1 with h | h <;> rcases hd2 with h' | h' <;>
            refine ⟨by omega, by omega, by omega, by omega⟩)
      unfold board_get_piece
      rw [if_pos hmv, if_pos (is_valid_position_iff.mpr hjv)]
      by_cases hcond : (∃ q, cellWrap b (r + d.1) (c + d.2) = some q ∧
          q.color ≠ p.color) ∧ cellWrap b (r + d.1 * 2) (c + d.2 * 2) = none
      · rw [if_pos ⟨hjv.1, hjv.2.1, hjv.2.2.1, hjv.2.2.2, hcond.1, hcond.2⟩,
          if_pos hcond]
      · rw [if_neg (fun hfull =>
            hcond ⟨hfull.2.2.2.2.1, hfull.2.2.2.2.2⟩), if_neg hcond]
    · rw [if_neg (fun ht => hjv (is_valid_position_iff.mp ht)),
        if_neg (fun hfull => hjv ⟨hfull.1, hfull.2.1, hfull.2.2.1, hfull.2.2.2.1⟩)]
  have hsimps : simpleDests b r c p =
      (get_move_directions p).filterMap fun d =>
        if is_valid_position (r + d.1) (c + d.2) = true ∧
            board_get_piece b (r + d.1) (c + d.2) = none
        then some (r + d.1, c + d.2) else none := by
    unfold simpleDests
    rw [pieceDirections_eq_get_move_directions]
    apply List.filterMap_congr
    intro d hd
    by_cases hv : 0 ≤ r + d.1 ∧ r + d.1 < 8 ∧ 0 ≤ c + d.2 ∧ c + d.2 < 8
    · have hvb : is_valid_position (r + d.1) (c + d.2) = true :=
        is_valid_position_iff.mpr hv
      have hbgp : board_get_piece b (r + d.1) (c + d.2) =
          cellWrap b (r + d.1) (c + d.2) := by
        unfold board_get_piece
        rw [if_pos hvb]
      by_cases hempty : cellWrap b (r + d.1) (c + d.2) = none
      · rw [if_pos ⟨hv.1, hv.2.1, hv.2.2.1, hv.2.2.2, hempty⟩,
          if_pos ⟨hvb, by rw [hbgp]; exact hempty⟩]
      · rw [if_neg (fun hfull => hempty hfull.2.2.2.2),
          if_neg (fun hfull => hempty (by rw [← hbgp]; exact hfull.2))]
    · rw [if_neg (fun hfull => hv ⟨hfull.1, hfull.2.1, hfull.2.2.1, hfull.2.2.2.1⟩),
        if_neg (fun hfull => hv (is_valid_position_iff.mp hfull.1))]
  unfold board_get_valid_moves
  rw [hbg]
  dsimp only
  unfold get_piece_moves
  rw [hcell]
  dsimp only
  rw [if_neg (not_not_intro hcol), ← hcaps, ← hsimps]

theorem claim_C10_witness :
    (4, 1) ∈ get_piece_moves initialize_board Color.red 5 0 false ↔
      (4, 1) ∈ board_get_valid_moves initialize_board 5 0 false :=
  claim_C10 initialize_board Color.red 5 0 ⟨Color.red, false⟩ false
    (by norm_num) (by norm_num) (by norm_num) (by norm_num)
    (by decide) (by decide) (4, 1)
